import Mathlib

/-
Formal model of the approximate personalized-PageRank code in
`AMiner/pprfile.py` (local push algorithm, batch drivers, top-k
truncation, normalization dispatch), together with proofs and
refutations of its documented properties.

Numeric values are modelled by exact rationals (the reference code uses
float32); dictionaries by association lists preserving insertion order
(Python dicts preserve insertion order); the worklist `q` (a Python list
used as a stack: `append` at the end, `pop` from the end) by a Lean list
whose head corresponds to the Python end.
-/

/-- CSR adjacency plus a degree vector, exactly the inputs
`(indptr, indices, deg)` that `_calc_ppr_node` receives. -/
structure Graph where
  indptr : Nat → Nat
  indices : List Nat
  deg : Nat → Nat

/-- Python slice `indices[indptr[u]:indptr[u+1]]`. -/
def neighbors (g : Graph) (u : Nat) : List Nat :=
  (g.indices.drop (g.indptr u)).take (g.indptr (u + 1) - g.indptr u)

/-- Dictionary read with default 0: `r[unode] if unode in r else f32_0`. -/
def rGet : List (Nat × ℚ) → Nat → ℚ
  | [], _ => 0
  | (k, v) :: t, k' => if k = k' then v else rGet t k'

/-- Python `if k in d: d[k] += v else: d[k] = v` on an insertion-ordered
dictionary: update the first entry with key `k` in place, or append a new
entry at the end. -/
def updInc : List (Nat × ℚ) → Nat → ℚ → List (Nat × ℚ)
  | [], k, v => [(k, v)]
  | (k', v') :: t, k, v => if k' = k then (k, v' + v) :: t else (k', v') :: updInc t k v

/-- Python `d[k] = v`: overwrite the first entry with key `k` in place, or
append a new entry at the end. -/
def setv : List (Nat × ℚ) → Nat → ℚ → List (Nat × ℚ)
  | [], k, v => [(k, v)]
  | (k', v') :: t, k, v => if k' = k then (k, v) :: t else (k', v') :: setv t k v

/-- Sum of the values of a dictionary (`sum(d.values())`). -/
def vsum (m : List (Nat × ℚ)) : ℚ :=
  (m.map Prod.snd).sum

/-- State of one push computation: settled mass `p`, residual mass `r`
(insertion-ordered dictionaries) and the worklist `q` (head = next pop). -/
structure PState where
  p : List (Nat × ℚ)
  r : List (Nat × ℚ)
  q : List Nat

/-- Body of the `for vnode in indices[indptr[unode]:indptr[unode+1]]` loop of
`_calc_ppr_node`: for each neighbor, add `_val = (1-alpha)*res/deg[unode]` to
`r[vnode]`, then enqueue `vnode` when the updated residual reaches the
activation threshold `alpha*epsilon*deg[vnode]` and `vnode` is not queued. -/
def pushNeighbors (g : Graph) (a e res du : ℚ) :
    List Nat → List (Nat × ℚ) × List Nat → List (Nat × ℚ) × List Nat
  | [], rq => rq
  | v :: vs, rq =>
    let val := (1 - a) * res / du
    let r1 := updInc rq.1 v val
    let q1 := if a * e * (g.deg v : ℚ) ≤ rGet r1 v ∧ v ∉ rq.2 then v :: rq.2 else rq.2
    pushNeighbors g a e res du vs (r1, q1)

/-- One iteration of the `while len(q) > 0` loop of `_calc_ppr_node`:
pop `unode`, settle its residual into `p`, zero its residual, and run the
neighbor loop.  On an empty worklist the state is returned unchanged. -/
def pushStep (g : Graph) (a e : ℚ) (s : PState) : PState :=
  match s.q with
  | [] => s
  | u :: qt =>
    let res := rGet s.r u
    let rq := pushNeighbors g a e res (g.deg u : ℚ) (neighbors g u) (setv s.r u 0, qt)
    ⟨updInc s.p u res, rq.1, rq.2⟩

/-- Iterated push steps (the while loop, step-indexed). -/
def pushIter (g : Graph) (a e : ℚ) : Nat → PState → PState
  | 0, s => s
  | n + 1, s => pushIter g a e n (pushStep g a e s)

/-- Initial state of `_calc_ppr_node`:
`p = {inode: 0}`, `r = {inode: alpha}`, `q = [inode]`. -/
def pushInit (s : Nat) (a : ℚ) : PState :=
  ⟨[(s, 0)], [(s, a)], [s]⟩

/-- State of the single-seed push after `fuel` loop iterations. -/
def pprState (g : Graph) (a e : ℚ) (s : Nat) (fuel : Nat) : PState :=
  pushIter g a e fuel (pushInit s a)

/-- Return value `(list(p.keys()), list(p.values()))` of `_calc_ppr_node`
after `fuel` loop iterations (the Python loop runs until `q` is empty;
termination is proved separately, so any sufficiently large `fuel` yields
the returned value). -/
def pprRow (g : Graph) (a e : ℚ) (s : Nat) (fuel : Nat) : List Nat × List ℚ :=
  ((pprState g a e s fuel).p.map Prod.fst, (pprState g a e s fuel).p.map Prod.snd)

/-- Degree vector is consistent with the CSR row slices: `deg[u]` is the
number of neighbors in row `u` (as when `deg` is computed from the same
adjacency). -/
def ConsistentDeg (g : Graph) : Prop :=
  ∀ u, (neighbors g u).length = g.deg u

/-- Test graph: a single directed edge `0 → 1`; node 1 has out-degree 0. -/
def G21 : Graph :=
  ⟨fun u => min u 1, [1], fun u => min (u + 1) 1 - min u 1⟩

/-- Test graph: the directed 2-cycle `0 → 1, 1 → 0`; both degrees are 1. -/
def Ring2 : Graph :=
  ⟨fun u => min u 2, [1, 0], fun u => min (u + 1) 2 - min u 2⟩

-- sanity checks of the executable model (scratch)
example : neighbors Ring2 0 = [1] := by decide
example : neighbors Ring2 1 = [0] := by decide
example : neighbors Ring2 5 = [] := by decide
example : (pprState Ring2 (1/2) 1 0 1).p = [(0, 1/2)] := by
  norm_num [pprState, pushIter, pushStep, pushInit, pushNeighbors, neighbors, rGet, updInc, setv, Ring2]
example : (pprState Ring2 (1/2) 1 0 1).r = [(0, 0), (1, 1/4)] := by
  norm_num [pprState, pushIter, pushStep, pushInit, pushNeighbors, neighbors, rGet, updInc, setv, Ring2]
example : (pprState Ring2 (1/2) 1 0 1).q = [] := by
  norm_num [pprState, pushIter, pushStep, pushInit, pushNeighbors, neighbors, rGet, updInc, setv, Ring2]
example : (pprState Ring2 (1/2) (1/10) 0 1).q = [1] := by
  norm_num [pprState, pushIter, pushStep, pushInit, pushNeighbors, neighbors, rGet, updInc, setv, Ring2]
example : (pprState G21 1 1 0 2).p = [(0, 1), (1, 0)] := by
  norm_num [pprState, pushIter, pushStep, pushInit, pushNeighbors, neighbors, rGet, updInc, setv, G21]
example : (pprState G21 1 1 0 2).q = [] := by
  norm_num [pprState, pushIter, pushStep, pushInit, pushNeighbors, neighbors, rGet, updInc, setv, G21]
example : (pprState G21 (1/2) 1 0 2).p = [(0, 1/2), (1, 1/4)] := by
  norm_num [pprState, pushIter, pushStep, pushInit, pushNeighbors, neighbors, rGet, updInc, setv, G21]

/-- Top-k truncation of one row, from `calc_ppr_topk_parallel`:
`if topk>0: idx_topk = np.argsort(val_np)[-topk:]; keep those entries`
(ascending sort by value, keep the last `topk` positions; a negative-start
slice of length ≥ the array keeps everything), `else` keep the row whole.
`np.argsort` is modelled by a stable insertion sort on the (key, value)
pairs, a member of the tie-break freedom `argsort` leaves unspecified. -/
def truncRow (topk : Int) (row : List Nat × List ℚ) : List Nat × List ℚ :=
  if 0 < topk then
    let pairs := row.1.zip row.2
    let sorted := pairs.insertionSort (fun x y => x.2 ≤ y.2)
    let kept := sorted.drop (sorted.length - topk.toNat)
    (kept.map Prod.fst, kept.map Prod.snd)
  else row

/-- Sequential batch driver `calc_ppr`: one push per seed, in order,
collecting the untruncated rows. -/
def calcPpr (g : Graph) (a e : ℚ) (nodes : List Nat) (fuel : Nat) :
    List (List Nat × List ℚ) :=
  nodes.map (fun s => pprRow g a e s fuel)

/-- Row `i` computed by one worker of `calc_ppr_topk_parallel`. -/
def parRow (g : Graph) (a e : ℚ) (nodes : List Nat) (topk : Int) (fuel i : Nat) :
    List Nat × List ℚ :=
  truncRow topk (pprRow g a e (nodes.getD i 0) fuel)

/-- Parallel batch driver `calc_ppr_topk_parallel`: the output slots start as
empty rows (`[np.zeros(0)]*len(nodes)`), and the workers of `numba.prange`
each write their own slot.  `sched` is the order in which the scheduler
completes the `len(nodes)` independent iterations; any interleaving of the
loop bodies is some such order because iteration `i` touches only slot `i`. -/
def calcPprTopkParallel (g : Graph) (a e : ℚ) (nodes : List Nat) (topk : Int)
    (fuel : Nat) (sched : List Nat) : List (List Nat × List ℚ) :=
  sched.foldl (fun slots i => slots.set i (parRow g a e nodes topk fuel i))
    (List.replicate nodes.length ([], []))

/-- Events observable while `topk_ppr_matrix` runs: the PPR computation of
line 99, and the `raise ValueError(...)` of line 123. -/
inductive Ev where
  | pprCompute
  | raiseNorm (msg : String)
deriving DecidableEq

/-- Normalization branch selected by `topk_ppr_matrix`. -/
inductive NormMode where
  | sym
  | col
  | row
deriving DecidableEq

/-- Control flow of `topk_ppr_matrix` on an already-built combined adjacency
(the torch/scipy construction of lines 92-97 is caller-side glue): first the
PPR matrix is computed (line 99), then the normalization string is examined
(lines 101-123).  The trace records the events in program order; the result
carries the selected branch and the PPR rows (the `sym`/`col` rescaling
itself involves real square roots of degrees and is irrelevant to every
claim, so the branch is recorded symbolically), and is `none` when
`ValueError` is raised. -/
def topkPprMatrix (g : Graph) (a e : ℚ) (idx : List Nat) (topk : Int)
    (normalization : String) (fuel : Nat) :
    List Ev × Option (NormMode × List (List Nat × List ℚ)) :=
  let rows := calcPprTopkParallel g a e idx topk fuel (List.range idx.length)
  if normalization = "sym" then ([.pprCompute], some (.sym, rows))
  else if normalization = "col" then ([.pprCompute], some (.col, rows))
  else if normalization = "row" then ([.pprCompute], some (.row, rows))
  else ([.pprCompute, .raiseNorm ("Unknown PPR normalization: " ++ normalization)], none)

/-- Initial state of the multi-seed push `_calc_gpr_node`:
`p = {inode: 0 for inode in inode_list}`, `r = {inode: alpha for ...}`
(dict comprehensions: repeated assignment), `q = list(inode_list)`
(duplicates kept; our worklist representation is reversed, head = next pop,
so the list is reversed). -/
def gprInit (seeds : List Nat) (a : ℚ) : PState :=
  ⟨seeds.foldl (fun m i => setv m i 0) [],
   seeds.foldl (fun m i => setv m i a) [],
   seeds.reverse⟩

/-- State of `_calc_gpr_node` after `fuel` loop iterations (the loop body is
identical to `_calc_ppr_node`). -/
def gprState (g : Graph) (a e : ℚ) (seeds : List Nat) (fuel : Nat) : PState :=
  pushIter g a e fuel (gprInit seeds a)

/-- Return value `(list(p.keys()), list(p.values()))` of `_calc_gpr_node`. -/
def gprRow (g : Graph) (a e : ℚ) (seeds : List Nat) (fuel : Nat) :
    List Nat × List ℚ :=
  ((gprState g a e seeds fuel).p.map Prod.fst, (gprState g a e seeds fuel).p.map Prod.snd)

/-- Seed set of class `i` in `calc_gpr_topk_parallel`:
`np.where(train_idx == i)[0]`, the positions of label `i`. -/
def classSeeds (labels : List Nat) (i : Nat) : List Nat :=
  (List.range labels.length).filter (fun j => labels.getD j 0 == i)

/-- Row of class `i` produced by `calc_gpr_topk_parallel`: the multi-seed
push over the class's seed set, truncated like the per-node driver. -/
def calcGprRow (g : Graph) (a e : ℚ) (labels : List Nat) (i : Nat) (topk : Int)
    (fuel : Nat) : List Nat × List ℚ :=
  truncRow topk (gprRow g a e (classSeeds labels i) fuel)

-- scratch sanity checks
example : truncRow 1 ([0, 1], [1/2, 1/4]) = ([0], [1/2]) := by
  norm_num [truncRow, List.insertionSort, List.orderedInsert]
example : truncRow 5 ([0, 1], [1/2, 1/4]) = ([1, 0], [1/4, 1/2]) := by
  norm_num [truncRow, List.insertionSort, List.orderedInsert]
example : truncRow (-1) ([0, 1], [1/2, 1/4]) = ([0, 1], [1/2, 1/4]) := by
  norm_num [truncRow]
example : classSeeds [0, 1, 0] 0 = [0, 2] := by decide
example : classSeeds [0, 1, 0] 2 = [] := by decide
example : gprRow Ring2 (1/2) 1 [] 3 = ([], []) := by
  norm_num [gprRow, gprState, gprInit, pushIter, pushStep]

/-! ### Dictionary lemmas -/

theorem rGet_updInc : ∀ (m : List (Nat × ℚ)) (k : Nat) (v : ℚ) (w : Nat),
    rGet (updInc m k v) w = rGet m w + if k = w then v else 0
  | [], k, v, w => by
    by_cases h : k = w <;> simp [updInc, rGet, h]
  | (kk, vv) :: t, k, v, w => by
    by_cases h : kk = k
    · subst h
      by_cases h2 : kk = w <;> simp [updInc, rGet, h2]
    · by_cases h2 : kk = w
      · subst h2
        have hkw : k ≠ kk := fun hc => h hc.symm
        simp [updInc, rGet, h, hkw]
      · simp [updInc, rGet, h, h2, rGet_updInc t k v w]

theorem rGet_setv : ∀ (m : List (Nat × ℚ)) (k : Nat) (v : ℚ) (w : Nat),
    rGet (setv m k v) w = if k = w then v else rGet m w
  | [], k, v, w => by
    by_cases h : k = w <;> simp [setv, rGet, h]
  | (kk, vv) :: t, k, v, w => by
    by_cases h : kk = k
    · subst h
      by_cases h2 : kk = w <;> simp [setv, rGet, h2]
    · by_cases h2 : kk = w
      · subst h2
        have hkw : k ≠ kk := fun hc => h hc.symm
        simp [setv, rGet, h, hkw]
      · simp [setv, rGet, h, h2, rGet_setv t k v w]

theorem vsum_nil : vsum [] = 0 := rfl

theorem vsum_cons (kv : Nat × ℚ) (t : List (Nat × ℚ)) :
    vsum (kv :: t) = kv.2 + vsum t := by
  simp [vsum]

theorem vsum_updInc : ∀ (m : List (Nat × ℚ)) (k : Nat) (v : ℚ),
    vsum (updInc m k v) = vsum m + v
  | [], k, v => by simp [updInc, vsum]
  | (kk, vv) :: t, k, v => by
    by_cases h : kk = k
    · simp only [updInc, if_pos h, vsum_cons]
      ring
    · simp only [updInc, if_neg h, vsum_cons, vsum_updInc t k v]
      ring

theorem vsum_setv_zero : ∀ (m : List (Nat × ℚ)) (k : Nat),
    vsum (setv m k 0) = vsum m - rGet m k
  | [], k => by simp [setv, vsum, rGet]
  | (kk, vv) :: t, k => by
    by_cases h : kk = k
    · subst h
      simp [setv, vsum_cons, rGet]
    · simp only [setv, if_neg h, vsum_cons, vsum_setv_zero t k, rGet,
        if_neg h]
      ring

theorem vsum_nonneg (m : List (Nat × ℚ)) (h : ∀ kv ∈ m, 0 ≤ kv.2) : 0 ≤ vsum m := by
  induction m with
  | nil => simp [vsum]
  | cons kv t ih =>
    rw [vsum_cons]
    have h1 := h kv (List.mem_cons_self _ _)
    have h2 := ih (fun x hx => h x (List.mem_cons_of_mem _ hx))
    linarith

theorem rGet_nonneg : ∀ (m : List (Nat × ℚ)), (∀ kv ∈ m, 0 ≤ kv.2) → ∀ k, 0 ≤ rGet m k
  | [], _, _ => le_refl 0
  | (kk, vv) :: t, h, k => by
    simp only [rGet]
    split
    · exact h (kk, vv) (List.mem_cons_self _ _)
    · exact rGet_nonneg t (fun kv hkv => h kv (List.mem_cons_of_mem _ hkv)) k

theorem entries_nonneg_updInc : ∀ (m : List (Nat × ℚ)) (k : Nat) (v : ℚ),
    (∀ kv ∈ m, 0 ≤ kv.2) → 0 ≤ v → ∀ kv ∈ updInc m k v, 0 ≤ kv.2
  | [], k, v, _, hv, kv, hkv => by
    simp [updInc] at hkv
    simp [hkv, hv]
  | (kk, vv) :: t, k, v, h, hv, kv, hkv => by
    by_cases hk : kk = k
    · simp only [updInc, if_pos hk] at hkv
      rcases List.mem_cons.mp hkv with h1 | h1
      · subst h1
        have := h (kk, vv) (List.mem_cons_self _ _)
        simp only at this ⊢
        linarith
      · exact h kv (List.mem_cons_of_mem _ h1)
    · simp only [updInc, if_neg hk] at hkv
      rcases List.mem_cons.mp hkv with h1 | h1
      · subst h1
        exact h (kk, vv) (List.mem_cons_self _ _)
      · exact entries_nonneg_updInc t k v
          (fun x hx => h x (List.mem_cons_of_mem _ hx)) hv kv h1

theorem entries_nonneg_setv : ∀ (m : List (Nat × ℚ)) (k : Nat) (v : ℚ),
    (∀ kv ∈ m, 0 ≤ kv.2) → 0 ≤ v → ∀ kv ∈ setv m k v, 0 ≤ kv.2
  | [], k, v, _, hv, kv, hkv => by
    simp [setv] at hkv
    simp [hkv, hv]
  | (kk, vv) :: t, k, v, h, hv, kv, hkv => by
    by_cases hk : kk = k
    · simp only [setv, if_pos hk] at hkv
      rcases List.mem_cons.mp hkv with h1 | h1
      · simp [h1, hv]
      · exact h kv (List.mem_cons_of_mem _ h1)
    · simp only [setv, if_neg hk] at hkv
      rcases List.mem_cons.mp hkv with h1 | h1
      · subst h1
        exact h (kk, vv) (List.mem_cons_self _ _)
      · exact entries_nonneg_setv t k v
          (fun x hx => h x (List.mem_cons_of_mem _ hx)) hv kv h1

theorem keys_updInc : ∀ (m : List (Nat × ℚ)) (k : Nat) (v : ℚ),
    (updInc m k v).map Prod.fst =
      if k ∈ m.map Prod.fst then m.map Prod.fst else m.map Prod.fst ++ [k]
  | [], k, v => by simp [updInc]
  | (kk, vv) :: t, k, v => by
    by_cases h : kk = k
    · subst h
      simp [updInc]
    · have hne : ¬k = kk := fun hc => h hc.symm
      simp only [updInc, if_neg h, List.map_cons, List.mem_cons, hne, false_or]
      rw [keys_updInc t k v]
      by_cases h2 : k ∈ t.map Prod.fst <;> simp [h2]

theorem mem_keys_updInc (m : List (Nat × ℚ)) (k : Nat) (v : ℚ) (w : Nat)
    (h : w ∈ m.map Prod.fst) : w ∈ (updInc m k v).map Prod.fst := by
  rw [keys_updInc]
  split <;> simp [h]

theorem self_mem_keys_updInc (m : List (Nat × ℚ)) (k : Nat) (v : ℚ) :
    k ∈ (updInc m k v).map Prod.fst := by
  rw [keys_updInc]
  split
  · assumption
  · simp

theorem nodup_keys_updInc (m : List (Nat × ℚ)) (k : Nat) (v : ℚ)
    (h : (m.map Prod.fst).Nodup) : ((updInc m k v).map Prod.fst).Nodup := by
  rw [keys_updInc]
  split
  · exact h
  · exact ((List.perm_append_singleton k (m.map Prod.fst)).nodup_iff).mpr
      (List.nodup_cons.mpr ⟨by assumption, h⟩)

theorem entry_eq_rGet : ∀ (m : List (Nat × ℚ)), (m.map Prod.fst).Nodup →
    ∀ kv ∈ m, kv.2 = rGet m kv.1
  | [], _, kv, hkv => absurd hkv (List.not_mem_nil kv)
  | (kk, vv) :: t, h, kv, hkv => by
    have hnd : kk ∉ t.map Prod.fst ∧ (t.map Prod.fst).Nodup := by
      rw [List.map_cons, List.nodup_cons] at h
      exact h
    rcases List.mem_cons.mp hkv with h1 | h1
    · subst h1
      simp [rGet]
    · have hk : kv.1 ∈ t.map Prod.fst := List.mem_map_of_mem Prod.fst h1
      have hne : kk ≠ kv.1 := fun hc => hnd.1 (hc ▸ hk)
      simp only [rGet, if_neg hne]
      exact entry_eq_rGet t hnd.2 kv h1

theorem rGet_allzero (m : List (Nat × ℚ)) (h : ∀ kv ∈ m, kv.2 = 0) (k : Nat) :
    rGet m k = 0 := by
  induction m with
  | nil => rfl
  | cons kv t ih =>
    obtain ⟨kk, vv⟩ := kv
    simp only [rGet]
    split
    · exact h (kk, vv) (List.mem_cons_self _ _)
    · exact ih (fun x hx => h x (List.mem_cons_of_mem _ hx))

theorem entries_zero_updInc : ∀ (m : List (Nat × ℚ)) (k : Nat),
    (∀ kv ∈ m, kv.2 = 0) → ∀ kv ∈ updInc m k 0, kv.2 = 0
  | [], k, _, kv, hkv => by
    simp [updInc] at hkv
    simp [hkv]
  | (kk, vv) :: t, k, h, kv, hkv => by
    by_cases hk : kk = k
    · simp only [updInc, if_pos hk] at hkv
      rcases List.mem_cons.mp hkv with h1 | h1
      · have := h (kk, vv) (List.mem_cons_self _ _)
        simp only at this
        simp [h1, this]
      · exact h kv (List.mem_cons_of_mem _ h1)
    · simp only [updInc, if_neg hk] at hkv
      rcases List.mem_cons.mp hkv with h1 | h1
      · subst h1
        exact h (kk, vv) (List.mem_cons_self _ _)
      · exact entries_zero_updInc t k
          (fun x hx => h x (List.mem_cons_of_mem _ hx)) kv h1

theorem entries_zero_setv : ∀ (m : List (Nat × ℚ)) (k : Nat),
    (∀ kv ∈ m, kv.2 = 0) → ∀ kv ∈ setv m k 0, kv.2 = 0
  | [], k, _, kv, hkv => by
    simp [setv] at hkv
    simp [hkv]
  | (kk, vv) :: t, k, h, kv, hkv => by
    by_cases hk : kk = k
    · simp only [setv, if_pos hk] at hkv
      rcases List.mem_cons.mp hkv with h1 | h1
      · simp [h1]
      · exact h kv (List.mem_cons_of_mem _ h1)
    · simp only [setv, if_neg hk] at hkv
      rcases List.mem_cons.mp hkv with h1 | h1
      · subst h1
        exact h (kk, vv) (List.mem_cons_self _ _)
      · exact entries_zero_setv t k
          (fun x hx => h x (List.mem_cons_of_mem _ hx)) kv h1

/-! ### Neighbor-loop lemmas -/

theorem pushNeighbors_nil (g : Graph) (a e res du : ℚ) (rq : List (Nat × ℚ) × List Nat) :
    pushNeighbors g a e res du [] rq = rq := rfl

theorem pushNeighbors_cons (g : Graph) (a e res du : ℚ) (v : Nat) (vs : List Nat)
    (rq : List (Nat × ℚ) × List Nat) :
    pushNeighbors g a e res du (v :: vs) rq =
      pushNeighbors g a e res du vs
        (updInc rq.1 v ((1 - a) * res / du),
         if a * e * (g.deg v : ℚ) ≤ rGet (updInc rq.1 v ((1 - a) * res / du)) v ∧ v ∉ rq.2
         then v :: rq.2 else rq.2) := rfl

theorem pn_fst_vsum (g : Graph) (a e res du : ℚ) : ∀ (vs : List Nat)
    (rq : List (Nat × ℚ) × List Nat),
    vsum (pushNeighbors g a e res du vs rq).1 =
      vsum rq.1 + ((1 - a) * res / du) * vs.length
  | [], rq => by simp [pushNeighbors_nil]
  | v :: vs, rq => by
    rw [pushNeighbors_cons, pn_fst_vsum g a e res du vs]
    simp only [vsum_updInc, List.length_cons]
    push_cast
    ring

theorem pn_rGet_le (g : Graph) (a e res du : ℚ) (hval : 0 ≤ (1 - a) * res / du) :
    ∀ (vs : List Nat) (rq : List (Nat × ℚ) × List Nat) (w : Nat),
    rGet rq.1 w ≤ rGet (pushNeighbors g a e res du vs rq).1 w
  | [], rq, w => le_refl _
  | v :: vs, rq, w => by
    rw [pushNeighbors_cons]
    refine le_trans ?_ (pn_rGet_le g a e res du hval vs _ w)
    simp only [rGet_updInc]
    split <;> linarith

theorem pn_q_len (g : Graph) (a e res du : ℚ) : ∀ (vs : List Nat)
    (rq : List (Nat × ℚ) × List Nat),
    (pushNeighbors g a e res du vs rq).2.length ≤ rq.2.length + vs.length
  | [], rq => by simp [pushNeighbors_nil]
  | v :: vs, rq => by
    rw [pushNeighbors_cons]
    refine le_trans (pn_q_len g a e res du vs _) ?_
    split <;> simp <;> omega

theorem pn_mem_q (g : Graph) (a e res du : ℚ) : ∀ (vs : List Nat)
    (rq : List (Nat × ℚ) × List Nat) (w : Nat), w ∈ rq.2 →
    w ∈ (pushNeighbors g a e res du vs rq).2
  | [], rq, w, hw => hw
  | v :: vs, rq, w, hw => by
    rw [pushNeighbors_cons]
    refine pn_mem_q g a e res du vs _ w ?_
    split
    · exact List.mem_cons_of_mem _ hw
    · exact hw

theorem pn_q_spec (g : Graph) (a e res du : ℚ) : ∀ (vs : List Nat)
    (rq : List (Nat × ℚ) × List Nat) (w : Nat),
    w ∈ (pushNeighbors g a e res du vs rq).2 → w ∈ rq.2 ∨ w ∈ vs
  | [], rq, w, hw => Or.inl hw
  | v :: vs, rq, w, hw => by
    rw [pushNeighbors_cons] at hw
    rcases pn_q_spec g a e res du vs _ w hw with h1 | h1
    · revert h1
      split
      · intro h1
        rcases List.mem_cons.mp h1 with h2 | h2
        · exact Or.inr (h2 ▸ List.mem_cons_self _ _)
        · exact Or.inl h2
      · intro h1
        exact Or.inl h1
    · exact Or.inr (List.mem_cons_of_mem _ h1)

theorem pn_nodup (g : Graph) (a e res du : ℚ) : ∀ (vs : List Nat)
    (rq : List (Nat × ℚ) × List Nat), rq.2.Nodup →
    (pushNeighbors g a e res du vs rq).2.Nodup
  | [], rq, h => h
  | v :: vs, rq, h => by
    rw [pushNeighbors_cons]
    refine pn_nodup g a e res du vs _ ?_
    split
    · exact List.nodup_cons.mpr ⟨by tauto, h⟩
    · exact h

theorem pn_entries_nonneg (g : Graph) (a e res du : ℚ)
    (hval : 0 ≤ (1 - a) * res / du) : ∀ (vs : List Nat)
    (rq : List (Nat × ℚ) × List Nat), (∀ kv ∈ rq.1, 0 ≤ kv.2) →
    ∀ kv ∈ (pushNeighbors g a e res du vs rq).1, 0 ≤ kv.2
  | [], rq, h => h
  | v :: vs, rq, h => by
    rw [pushNeighbors_cons]
    exact pn_entries_nonneg g a e res du hval vs _
      (entries_nonneg_updInc rq.1 v _ h hval)

theorem pn_thresh (g : Graph) (a e res du : ℚ)
    (hval : 0 ≤ (1 - a) * res / du) : ∀ (vs : List Nat)
    (rq : List (Nat × ℚ) × List Nat),
    (∀ w ∈ rq.2, a * e * (g.deg w : ℚ) ≤ rGet rq.1 w) →
    ∀ w ∈ (pushNeighbors g a e res du vs rq).2,
      a * e * (g.deg w : ℚ) ≤ rGet (pushNeighbors g a e res du vs rq).1 w
  | [], rq, h => h
  | v :: vs, rq, h => by
    rw [pushNeighbors_cons]
    refine pn_thresh g a e res du hval vs _ ?_
    split
    · intro w hw
      rcases List.mem_cons.mp hw with h2 | h2
      · subst h2
        rename_i hguard
        exact hguard.1
      · refine le_trans (h w h2) ?_
        simp only [rGet_updInc]
        split <;> linarith
    · intro w hw
      refine le_trans (h w hw) ?_
      simp only [rGet_updInc]
      split <;> linarith

/-! ### Step lemmas, invariant, termination -/

theorem pushStep_cons (g : Graph) (a e : ℚ) (p r : List (Nat × ℚ)) (u : Nat)
    (qt : List Nat) :
    pushStep g a e ⟨p, r, u :: qt⟩ =
      ⟨updInc p u (rGet r u),
       (pushNeighbors g a e (rGet r u) (g.deg u : ℚ) (neighbors g u) (setv r u 0, qt)).1,
       (pushNeighbors g a e (rGet r u) (g.deg u : ℚ) (neighbors g u) (setv r u 0, qt)).2⟩ :=
  rfl

theorem pushStep_empty (g : Graph) (a e : ℚ) (st : PState) (h : st.q = []) :
    pushStep g a e st = st := by
  obtain ⟨p, r, q⟩ := st
  simp only at h
  subst h
  rfl

theorem pushIter_succ (g : Graph) (a e : ℚ) (n : Nat) (st : PState) :
    pushIter g a e (n + 1) st = pushIter g a e n (pushStep g a e st) := rfl

theorem pushIter_empty (g : Graph) (a e : ℚ) : ∀ (n : Nat) (st : PState),
    st.q = [] → pushIter g a e n st = st
  | 0, _, _ => rfl
  | n + 1, st, h => by
    rw [pushIter_succ, pushStep_empty g a e st h, pushIter_empty g a e n st h]

/-- Loop invariant of the push computation: the worklist has no duplicates
(maintained by the `vnode not in q` test), all residuals are nonnegative,
and every queued node's residual has reached its activation threshold. -/
def PushInv (g : Graph) (a e : ℚ) (st : PState) : Prop :=
  st.q.Nodup ∧ (∀ kv ∈ st.r, 0 ≤ kv.2) ∧
    (∀ u ∈ st.q, a * e * (g.deg u : ℚ) ≤ rGet st.r u)

/-- Potential function: total residual mass plus `a²e` per queued node;
each loop iteration decreases it by at least `a²e`. -/
def phi (a e : ℚ) (st : PState) : ℚ :=
  vsum st.r + a * a * e * st.q.length

theorem val_nonneg (a res du : ℚ) (ha1 : a ≤ 1) (hres : 0 ≤ res) (hdu : 0 ≤ du) :
    0 ≤ (1 - a) * res / du :=
  div_nonneg (mul_nonneg (by linarith) hres) hdu

theorem step_inv (g : Graph) (a e : ℚ) (ha0 : 0 ≤ a) (ha1 : a ≤ 1) (st : PState)
    (hnd : st.q.Nodup) (hnn : ∀ kv ∈ st.r, 0 ≤ kv.2)
    (hth : ∀ w ∈ st.q.tail, a * e * (g.deg w : ℚ) ≤ rGet st.r w) :
    PushInv g a e (pushStep g a e st) := by
  obtain ⟨p, r, q⟩ := st
  cases q with
  | nil =>
    rw [pushStep_empty g a e _ rfl]
    exact ⟨hnd, hnn, by simp⟩
  | cons u qt =>
    rw [pushStep_cons]
    have hres : 0 ≤ rGet r u := rGet_nonneg r hnn u
    have hval : 0 ≤ (1 - a) * rGet r u / (g.deg u : ℚ) :=
      val_nonneg a _ _ ha1 hres (Nat.cast_nonneg _)
    have hndt : qt.Nodup := (List.nodup_cons.mp hnd).2
    have hunq : u ∉ qt := (List.nodup_cons.mp hnd).1
    have hnn0 : ∀ kv ∈ setv r u 0, 0 ≤ kv.2 :=
      entries_nonneg_setv r u 0 hnn (le_refl 0)
    have hth0 : ∀ w ∈ qt, a * e * (g.deg w : ℚ) ≤ rGet (setv r u 0) w := by
      intro w hw
      rw [rGet_setv]
      rw [if_neg (fun hc : u = w => hunq (hc ▸ hw))]
      exact hth w hw
    exact ⟨pn_nodup g a e _ _ _ _ hndt,
      pn_entries_nonneg g a e _ _ hval _ _ hnn0,
      pn_thresh g a e _ _ hval _ _ hth0⟩

theorem step_inv_of_inv (g : Graph) (a e : ℚ) (ha0 : 0 ≤ a) (ha1 : a ≤ 1)
    (st : PState) (h : PushInv g a e st) : PushInv g a e (pushStep g a e st) :=
  step_inv g a e ha0 ha1 st h.1 h.2.1
    (fun w hw => h.2.2 w (List.mem_of_mem_tail hw))

theorem step_phi (g : Graph) (a e : ℚ) (hcons : ConsistentDeg g)
    (ha0 : 0 < a) (ha1 : a ≤ 1) (he : 0 < e) (st : PState)
    (h : PushInv g a e st) (hne : st.q ≠ []) :
    phi a e (pushStep g a e st) + a * a * e ≤ phi a e st := by
  obtain ⟨p, r, q⟩ := st
  cases q with
  | nil => exact absurd rfl hne
  | cons u qt =>
    rw [pushStep_cons]
    have hthr : a * e * (g.deg u : ℚ) ≤ rGet r u :=
      h.2.2 u (List.mem_cons_self _ _)
    have hres : 0 ≤ rGet r u := rGet_nonneg r h.2.1 u
    have hlen : ((neighbors g u).length : ℚ) = (g.deg u : ℚ) := by
      exact_mod_cast congrArg Nat.cast (hcons u)
    have hv : vsum (pushNeighbors g a e (rGet r u) (g.deg u : ℚ)
        (neighbors g u) (setv r u 0, qt)).1
        = vsum r - rGet r u
          + (1 - a) * rGet r u / (g.deg u : ℚ) * (neighbors g u).length := by
      rw [pn_fst_vsum, vsum_setv_zero]
    have hq : ((pushNeighbors g a e (rGet r u) (g.deg u : ℚ)
        (neighbors g u) (setv r u 0, qt)).2.length : ℚ)
        ≤ (qt.length : ℚ) + (g.deg u : ℚ) := by
      rw [← hlen]
      exact_mod_cast pn_q_len g a e _ _ (neighbors g u) (setv r u 0, qt)
    have hae : 0 < a * a * e := by positivity
    by_cases hd : g.deg u = 0
    · have hnb : neighbors g u = [] := by
        have hcu := hcons u
        rw [hd] at hcu
        exact List.length_eq_zero.mp hcu
      simp only [phi, List.length_cons, hnb, pushNeighbors_nil, vsum_setv_zero,
        List.length_nil]
      push_cast
      linarith
    · have hd1 : (1 : ℚ) ≤ (g.deg u : ℚ) := by
        exact_mod_cast Nat.one_le_iff_ne_zero.mpr hd
      have hdne : (g.deg u : ℚ) ≠ 0 := by linarith
      have hmul : (1 - a) * rGet r u / (g.deg u : ℚ) * ((neighbors g u).length : ℚ)
          = (1 - a) * rGet r u := by
        rw [hlen, div_mul_cancel₀ _ hdne]
      have hares : a * (a * e * (g.deg u : ℚ)) ≤ a * rGet r u :=
        mul_le_mul_of_nonneg_left hthr (le_of_lt ha0)
      simp only [phi, hv, List.length_cons, hmul]
      push_cast
      nlinarith [hq, hares]

theorem phi_nonneg (a e : ℚ) (ha0 : 0 ≤ a) (he : 0 ≤ e) (st : PState)
    (hr : ∀ kv ∈ st.r, 0 ≤ kv.2) : 0 ≤ phi a e st := by
  have h1 : 0 ≤ vsum st.r := vsum_nonneg st.r hr
  have h2 : 0 ≤ a * a * e * st.q.length := by positivity
  simp only [phi]
  linarith

theorem iter_empties (g : Graph) (a e : ℚ) (hcons : ConsistentDeg g)
    (ha0 : 0 < a) (ha1 : a ≤ 1) (he : 0 < e) : ∀ (n : Nat) (st : PState),
    PushInv g a e st → phi a e st ≤ n * (a * a * e) → (pushIter g a e n st).q = []
  | 0, st, hinv, hle => by
    by_contra hne
    simp only [pushIter] at hne
    have hlen : (1 : ℚ) ≤ st.q.length := by
      have hnz : st.q.length ≠ 0 := fun hc =>
        hne (List.length_eq_zero.mp hc)
      exact_mod_cast Nat.one_le_iff_ne_zero.mpr hnz
    have hae : 0 < a * a * e := by positivity
    have h1 : 0 ≤ vsum st.r := vsum_nonneg st.r hinv.2.1
    have h2 : a * a * e * 1 ≤ a * a * e * st.q.length :=
      mul_le_mul_of_nonneg_left hlen (le_of_lt hae)
    simp only [phi] at hle
    norm_num at hle
    nlinarith
  | n + 1, st, hinv, hle => by
    by_cases hq : st.q = []
    · rw [pushIter_empty g a e (n + 1) st hq]
      exact hq
    · rw [pushIter_succ]
      refine iter_empties g a e hcons ha0 ha1 he n _
        (step_inv_of_inv g a e (le_of_lt ha0) ha1 st hinv) ?_
      have hdec := step_phi g a e hcons ha0 ha1 he st hinv hq
      have hc : ((n + 1 : Nat) : ℚ) * (a * a * e) = n * (a * a * e) + a * a * e := by
        push_cast
        ring
      rw [hc] at hle
      linarith

/-- Termination of `_calc_ppr_node`: for a consistent degree vector,
`0 < alpha ≤ 1` and `epsilon > 0` there is a number of loop iterations
after which the worklist is empty (so the `while` loop exits). -/
theorem push_terminates (g : Graph) (a e : ℚ) (hcons : ConsistentDeg g)
    (ha0 : 0 < a) (ha1 : a ≤ 1) (he : 0 < e) (seed : Nat) :
    ∃ N, (pprState g a e seed N).q = [] := by
  have hinit : PushInv g a e (pushStep g a e (pushInit seed a)) := by
    refine step_inv g a e (le_of_lt ha0) ha1 _ ?_ ?_ ?_
    · exact List.nodup_singleton seed
    · intro kv hkv
      simp only [pushInit, List.mem_singleton] at hkv
      simp [hkv, le_of_lt ha0]
    · intro w hw
      simp [pushInit] at hw
  have hae : 0 < a * a * e := by positivity
  refine ⟨Nat.ceil (phi a e (pushStep g a e (pushInit seed a)) / (a * a * e)) + 1, ?_⟩
  have hle : phi a e (pushStep g a e (pushInit seed a))
      ≤ (Nat.ceil (phi a e (pushStep g a e (pushInit seed a)) / (a * a * e)) : ℚ)
        * (a * a * e) := by
    rw [← div_le_iff₀ hae]
    exact Nat.le_ceil _
  simp only [pprState]
  rw [pushIter_succ]
  exact iter_empties g a e hcons ha0 ha1 he _ _ hinit hle

/-! ### Conservation of mass -/

theorem pushIter_succ_right (g : Graph) (a e : ℚ) : ∀ (n : Nat) (st : PState),
    pushIter g a e (n + 1) st = pushStep g a e (pushIter g a e n st)
  | 0, _ => rfl
  | n + 1, st => by
    rw [pushIter_succ g a e (n + 1) st, pushIter_succ_right g a e n _,
      ← pushIter_succ g a e n st]

theorem neighbors_subset (g : Graph) (u : Nat) : ∀ w ∈ neighbors g u, w ∈ g.indices :=
  fun _ hw => List.drop_subset _ _ (List.take_subset _ _ hw)

theorem step_conserve (g : Graph) (a e : ℚ) (hcons : ConsistentDeg g) (st : PState)
    (hdq : ∀ u ∈ st.q, 1 ≤ g.deg u) :
    a * vsum (pushStep g a e st).p + vsum (pushStep g a e st).r
      = a * vsum st.p + vsum st.r := by
  obtain ⟨p, r, q⟩ := st
  cases q with
  | nil => rw [pushStep_empty g a e _ rfl]
  | cons u qt =>
    rw [pushStep_cons]
    have hd1 : 1 ≤ g.deg u := hdq u (List.mem_cons_self _ _)
    have hdpos : (1 : ℚ) ≤ (g.deg u : ℚ) := by exact_mod_cast hd1
    have hdne : (g.deg u : ℚ) ≠ 0 := by linarith
    have hlen : ((neighbors g u).length : ℚ) = (g.deg u : ℚ) := by
      exact_mod_cast congrArg Nat.cast (hcons u)
    show a * vsum (updInc p u (rGet r u)) + vsum (pushNeighbors g a e (rGet r u)
      (g.deg u : ℚ) (neighbors g u) (setv r u 0, qt)).1 = a * vsum p + vsum r
    rw [vsum_updInc, pn_fst_vsum, vsum_setv_zero, hlen, div_mul_cancel₀ _ hdne]
    ring

theorem step_q_deg (g : Graph) (a e : ℚ) (hind : ∀ v ∈ g.indices, 1 ≤ g.deg v)
    (st : PState) (hdq : ∀ u ∈ st.q, 1 ≤ g.deg u) :
    ∀ w ∈ (pushStep g a e st).q, 1 ≤ g.deg w := by
  obtain ⟨p, r, q⟩ := st
  cases q with
  | nil =>
    rw [pushStep_empty g a e _ rfl]
    exact hdq
  | cons u qt =>
    rw [pushStep_cons]
    intro w hw
    rcases pn_q_spec g a e _ _ _ _ w hw with h1 | h1
    · exact hdq w (List.mem_cons_of_mem _ h1)
    · exact hind w (neighbors_subset g u w h1)

theorem conserve_iter (g : Graph) (a e : ℚ) (hcons : ConsistentDeg g)
    (hind : ∀ v ∈ g.indices, 1 ≤ g.deg v) (seed : Nat) (hs : 1 ≤ g.deg seed) :
    ∀ k, (∀ u ∈ (pprState g a e seed k).q, 1 ≤ g.deg u) ∧
      a * vsum (pprState g a e seed k).p + vsum (pprState g a e seed k).r = a
  | 0 => by
    constructor
    · intro u hu
      simp only [pprState, pushIter, pushInit] at hu
      rw [List.mem_singleton] at hu
      subst hu
      exact hs
    · simp [pprState, pushIter, pushInit, vsum]
  | k + 1 => by
    have ih := conserve_iter g a e hcons hind seed hs k
    have hst : pprState g a e seed (k + 1)
        = pushStep g a e (pprState g a e seed k) := by
      simp only [pprState]
      exact pushIter_succ_right g a e k _
    rw [hst]
    exact ⟨step_q_deg g a e hind _ ih.1,
      by rw [step_conserve g a e hcons _ ih.1, ih.2]⟩

/-! ### Consistency of concrete graphs -/

theorem consistentDeg_of_indptr (g : Graph)
    (hmono : ∀ u, g.indptr u ≤ g.indptr (u + 1))
    (hbound : ∀ u, g.indptr u ≤ g.indices.length)
    (hdeg : ∀ u, g.deg u = g.indptr (u + 1) - g.indptr u) :
    ConsistentDeg g := by
  intro u
  have h1 := hmono u
  have h2 := hbound (u + 1)
  have h3 := hbound u
  simp only [neighbors, List.length_take, List.length_drop, hdeg]
  omega

theorem G21_consistent : ConsistentDeg G21 := by
  refine consistentDeg_of_indptr _ ?_ ?_ ?_
  · intro u
    show min u 1 ≤ min (u + 1) 1
    omega
  · intro u
    show min u 1 ≤ [1].length
    simp only [List.length_singleton]
    omega
  · intro u
    rfl

theorem Ring2_consistent : ConsistentDeg Ring2 := by
  refine consistentDeg_of_indptr _ ?_ ?_ ?_
  · intro u
    show min u 2 ≤ min (u + 1) 2
    omega
  · intro u
    show min u 2 ≤ [1, 0].length
    simp only [List.length_cons, List.length_singleton]
    omega
  · intro u
    rfl

/-! ### Behaviour at alpha = 1 -/

theorem entries_zero_off_updInc : ∀ (m : List (Nat × ℚ)) (k s : Nat),
    (∀ kv ∈ m, kv.1 ≠ s → kv.2 = 0) → ∀ kv ∈ updInc m k 0, kv.1 ≠ s → kv.2 = 0
  | [], k, s, _, kv, hkv, _ => by
    simp [updInc] at hkv
    simp [hkv]
  | (kk, vv) :: t, k, s, h, kv, hkv, hne => by
    by_cases hk : kk = k
    · simp only [updInc, if_pos hk] at hkv
      rcases List.mem_cons.mp hkv with h1 | h1
      · have hv0 : vv = 0 := by
          refine h (kk, vv) (List.mem_cons_self _ _) ?_
          intro hc
          apply hne
          rw [h1]
          simpa [hk] using hc
        simp [h1, hv0]
      · exact h kv (List.mem_cons_of_mem _ h1) hne
    · simp only [updInc, if_neg hk] at hkv
      rcases List.mem_cons.mp hkv with h1 | h1
      · subst h1
        exact h (kk, vv) (List.mem_cons_self _ _) hne
      · exact entries_zero_off_updInc t k s
          (fun x hx => h x (List.mem_cons_of_mem _ hx)) kv h1 hne

theorem val_one_zero (res du : ℚ) : (1 - 1) * res / du = 0 := by
  norm_num

theorem pn_fst_zero (g : Graph) (e res du : ℚ) : ∀ (vs : List Nat)
    (rq : List (Nat × ℚ) × List Nat), (∀ kv ∈ rq.1, kv.2 = 0) →
    ∀ kv ∈ (pushNeighbors g 1 e res du vs rq).1, kv.2 = 0
  | [], rq, h => h
  | v :: vs, rq, h => by
    rw [pushNeighbors_cons, val_one_zero]
    exact pn_fst_zero g e res du vs _ (entries_zero_updInc rq.1 v h)

theorem pn_q_deg0 (g : Graph) (e res du : ℚ) (he : 0 < e) : ∀ (vs : List Nat)
    (rq : List (Nat × ℚ) × List Nat), (∀ kv ∈ rq.1, kv.2 = 0) →
    (∀ w ∈ rq.2, g.deg w = 0) →
    ∀ w ∈ (pushNeighbors g 1 e res du vs rq).2, g.deg w = 0
  | [], rq, _, hq => hq
  | v :: vs, rq, h, hq => by
    rw [pushNeighbors_cons, val_one_zero]
    have hz1 : ∀ kv ∈ updInc rq.1 v 0, kv.2 = 0 := entries_zero_updInc rq.1 v h
    refine pn_q_deg0 g e res du he vs _ hz1 ?_
    split
    · rename_i hguard
      intro w hw
      rcases List.mem_cons.mp hw with h1 | h1
      · subst h1
        have hg0 : rGet (updInc rq.1 w 0) w = 0 := rGet_allzero _ hz1 w
        rw [hg0] at hguard
        have hcast : (0 : ℚ) ≤ (g.deg w : ℚ) := Nat.cast_nonneg _
        have hle : (g.deg w : ℚ) ≤ 0 := by nlinarith [hguard.1]
        have : (g.deg w : ℚ) = 0 := le_antisymm hle hcast
        exact_mod_cast this
      · exact hq w h1
    · exact hq

theorem pn_adds_deg0 (g : Graph) (e res du : ℚ) : ∀ (vs : List Nat)
    (rq : List (Nat × ℚ) × List Nat), (∀ kv ∈ rq.1, kv.2 = 0) →
    ∀ v ∈ vs, g.deg v = 0 → v ∈ (pushNeighbors g 1 e res du vs rq).2
  | w :: vs, rq, h, v, hv, hd0 => by
    rw [pushNeighbors_cons, val_one_zero]
    have hz1 : ∀ kv ∈ updInc rq.1 w 0, kv.2 = 0 := entries_zero_updInc rq.1 w h
    rcases List.mem_cons.mp hv with h1 | h1
    · subst h1
      have hmem : v ∈ (if 1 * e * (g.deg v : ℚ) ≤ rGet (updInc rq.1 v 0) v ∧ v ∉ rq.2
          then v :: rq.2 else rq.2) := by
        split
        · exact List.mem_cons_self _ _
        · rename_i hguard
          have hg0 : rGet (updInc rq.1 v 0) v = 0 := rGet_allzero _ hz1 v
          by_cases hvq : v ∈ rq.2
          · exact hvq
          · exfalso
            apply hguard
            refine ⟨?_, hvq⟩
            rw [hg0, hd0]
            norm_num
      exact pn_mem_q g 1 e res du vs _ v hmem
    · exact pn_adds_deg0 g e res du vs _ hz1 v h1 hd0

theorem mem_persists (g : Graph) (a e : ℚ) (v : Nat) (st : PState)
    (h : v ∈ st.q ∨ v ∈ st.p.map Prod.fst) :
    v ∈ (pushStep g a e st).q ∨ v ∈ (pushStep g a e st).p.map Prod.fst := by
  obtain ⟨p, r, q⟩ := st
  cases q with
  | nil =>
    rw [pushStep_empty g a e _ rfl]
    exact h
  | cons u qt =>
    rw [pushStep_cons]
    rcases h with h1 | h1
    · rcases List.mem_cons.mp h1 with h2 | h2
      · subst h2
        exact Or.inr (self_mem_keys_updInc p v _)
      · exact Or.inl (pn_mem_q g a e _ _ _ _ v h2)
    · exact Or.inr (mem_keys_updInc p u _ v h1)

theorem mem_persists_iter (g : Graph) (a e : ℚ) (v : Nat) : ∀ (n : Nat) (st : PState),
    (v ∈ st.q ∨ v ∈ st.p.map Prod.fst) →
    v ∈ (pushIter g a e n st).q ∨ v ∈ (pushIter g a e n st).p.map Prod.fst
  | 0, _, h => h
  | n + 1, st, h => by
    rw [pushIter_succ]
    exact mem_persists_iter g a e v n _ (mem_persists g a e v st h)

theorem alpha_one_step (g : Graph) (e : ℚ) (hcons : ConsistentDeg g)
    (seed : Nat) (st : PState)
    (h1 : ∀ kv ∈ st.r, kv.2 = 0) (h2 : ∀ w ∈ st.q, g.deg w = 0)
    (h3 : (st.p.map Prod.fst).Nodup) (h4 : rGet st.p seed = 1)
    (h5 : ∀ kv ∈ st.p, kv.1 ≠ seed → kv.2 = 0) :
    (∀ kv ∈ (pushStep g 1 e st).r, kv.2 = 0) ∧
    (∀ w ∈ (pushStep g 1 e st).q, g.deg w = 0) ∧
    ((pushStep g 1 e st).p.map Prod.fst).Nodup ∧
    rGet (pushStep g 1 e st).p seed = 1 ∧
    (∀ kv ∈ (pushStep g 1 e st).p, kv.1 ≠ seed → kv.2 = 0) := by
  obtain ⟨p, r, q⟩ := st
  cases q with
  | nil =>
    rw [pushStep_empty g 1 e _ rfl]
    exact ⟨h1, h2, h3, h4, h5⟩
  | cons u qt =>
    have hd0 : g.deg u = 0 := h2 u (List.mem_cons_self _ _)
    have hnb : neighbors g u = [] := by
      have hcu := hcons u
      rw [hd0] at hcu
      exact List.length_eq_zero.mp hcu
    have hres : rGet r u = 0 := rGet_allzero r h1 u
    rw [pushStep_cons, hnb, hres, pushNeighbors_nil]
    refine ⟨entries_zero_setv r u h1,
      fun w hw => h2 w (List.mem_cons_of_mem _ hw),
      nodup_keys_updInc p u 0 h3, ?_,
      entries_zero_off_updInc p u seed h5⟩
    rw [rGet_updInc]
    split <;> simp [h4]

theorem alpha_one_invariant (g : Graph) (e : ℚ) (hcons : ConsistentDeg g)
    (he : 0 < e) (seed : Nat) : ∀ k,
    (∀ kv ∈ (pprState g 1 e seed (k + 1)).r, kv.2 = 0) ∧
    (∀ w ∈ (pprState g 1 e seed (k + 1)).q, g.deg w = 0) ∧
    ((pprState g 1 e seed (k + 1)).p.map Prod.fst).Nodup ∧
    rGet (pprState g 1 e seed (k + 1)).p seed = 1 ∧
    (∀ kv ∈ (pprState g 1 e seed (k + 1)).p, kv.1 ≠ seed → kv.2 = 0)
  | 0 => by
    have hstate : pprState g 1 e seed 1 = pushStep g 1 e (pushInit seed 1) := rfl
    have hres : rGet [(seed, (1 : ℚ))] seed = 1 := by simp [rGet]
    have hupd : updInc [(seed, (0 : ℚ))] seed 1 = [(seed, 1)] := by
      norm_num [updInc]
    have hsetv : setv [(seed, (1 : ℚ))] seed 0 = [(seed, 0)] := by simp [setv]
    have hInit : pushInit seed 1 = ⟨[(seed, 0)], [(seed, 1)], [seed]⟩ := rfl
    have hz0 : ∀ kv ∈ (([(seed, (0 : ℚ))], ([] : List Nat))).1, kv.2 = (0 : ℚ) := by
      simp
    rw [hstate, hInit, pushStep_cons, hres, hupd, hsetv]
    refine ⟨pn_fst_zero g e 1 (g.deg seed : ℚ) (neighbors g seed)
        ([(seed, 0)], []) hz0, ?_, by simp, by simp [rGet], ?_⟩
    · exact pn_q_deg0 g e 1 (g.deg seed : ℚ) he (neighbors g seed)
        ([(seed, 0)], []) hz0 (by simp)
    · intro kv hkv hne
      rw [List.mem_singleton] at hkv
      exact absurd (congrArg Prod.fst hkv) hne
  | k + 1 => by
    have ih := alpha_one_invariant g e hcons he seed k
    have hst : pprState g 1 e seed (k + 1 + 1)
        = pushStep g 1 e (pprState g 1 e seed (k + 1)) := by
      simp only [pprState]
      exact pushIter_succ_right g 1 e (k + 1) _
    rw [hst]
    exact alpha_one_step g e hcons seed _ ih.1 ih.2.1 ih.2.2.1 ih.2.2.2.1 ih.2.2.2.2

/-! ### The seed keeps at least alpha of settled mass -/

theorem seed_settled_step (g : Graph) (a e : ℚ) (ha1 : a ≤ 1) (seed : Nat)
    (st : PState) (h1 : ∀ kv ∈ st.r, 0 ≤ kv.2)
    (h2 : seed ∈ st.p.map Prod.fst) (h3 : a ≤ rGet st.p seed) :
    (∀ kv ∈ (pushStep g a e st).r, 0 ≤ kv.2) ∧
    seed ∈ (pushStep g a e st).p.map Prod.fst ∧
    a ≤ rGet (pushStep g a e st).p seed := by
  obtain ⟨p, r, q⟩ := st
  cases q with
  | nil =>
    rw [pushStep_empty g a e _ rfl]
    exact ⟨h1, h2, h3⟩
  | cons u qt =>
    rw [pushStep_cons]
    have hres : 0 ≤ rGet r u := rGet_nonneg r h1 u
    have hval : 0 ≤ (1 - a) * rGet r u / (g.deg u : ℚ) :=
      val_nonneg a _ _ ha1 hres (Nat.cast_nonneg _)
    refine ⟨pn_entries_nonneg g a e _ _ hval _ _
        (entries_nonneg_setv r u 0 h1 (le_refl 0)),
      mem_keys_updInc p u _ seed h2, ?_⟩
    rw [rGet_updInc]
    split <;> linarith

theorem seed_ge_alpha (g : Graph) (a e : ℚ) (ha0 : 0 ≤ a) (ha1 : a ≤ 1)
    (seed : Nat) : ∀ k,
    (∀ kv ∈ (pprState g a e seed (k + 1)).r, 0 ≤ kv.2) ∧
    seed ∈ (pprState g a e seed (k + 1)).p.map Prod.fst ∧
    a ≤ rGet (pprState g a e seed (k + 1)).p seed
  | 0 => by
    have hstate : pprState g a e seed 1 = pushStep g a e (pushInit seed a) := rfl
    have hInit : pushInit seed a = ⟨[(seed, 0)], [(seed, a)], [seed]⟩ := rfl
    have hres : rGet [(seed, a)] seed = a := by simp [rGet]
    have hupd : updInc [(seed, (0 : ℚ))] seed a = [(seed, a)] := by
      simp [updInc]
    have hsetv : setv [(seed, a)] seed 0 = [(seed, 0)] := by simp [setv]
    have hnn0 : ∀ kv ∈ (([(seed, (0 : ℚ))], ([] : List Nat))).1, 0 ≤ kv.2 := by
      simp
    have hval : 0 ≤ (1 - a) * a / (g.deg seed : ℚ) :=
      val_nonneg a a _ ha1 ha0 (Nat.cast_nonneg _)
    rw [hstate, hInit, pushStep_cons, hres, hupd, hsetv]
    exact ⟨pn_entries_nonneg g a e a (g.deg seed : ℚ) hval (neighbors g seed)
        ([(seed, 0)], []) hnn0,
      by simp, by simp [rGet]⟩
  | k + 1 => by
    have ih := seed_ge_alpha g a e ha0 ha1 seed k
    have hst : pprState g a e seed (k + 1 + 1)
        = pushStep g a e (pprState g a e seed (k + 1)) := by
      simp only [pprState]
      exact pushIter_succ_right g a e (k + 1) _
    rw [hst]
    exact seed_settled_step g a e ha1 seed _ ih.1 ih.2.1 ih.2.2

/-! ### Batch drivers -/

theorem runSched_length {α : Type} (f : Nat → α) : ∀ (sched : List Nat) (slots : List α),
    (sched.foldl (fun sl j => sl.set j (f j)) slots).length = slots.length
  | [], _ => rfl
  | j :: sched, slots => by
    rw [List.foldl_cons, runSched_length f sched, List.length_set]

theorem runSched_getElem? {α : Type} (f : Nat → α) : ∀ (sched : List Nat)
    (slots : List α) (i : Nat),
    (sched.foldl (fun sl j => sl.set j (f j)) slots)[i]? =
      if i ∈ sched ∧ i < slots.length then some (f i) else slots[i]?
  | [], slots, i => by simp
  | j :: sched, slots, i => by
    rw [List.foldl_cons, runSched_getElem? f sched _ i, List.length_set]
    by_cases hlen : i < slots.length
    · by_cases hmem : i ∈ sched
      · simp [hmem, hlen]
      · by_cases hij : i = j
        · subst hij
          simp [hmem, hlen, List.getElem?_set_eq_of_lt]
        · have hne : j ≠ i := fun hc => hij hc.symm
          simp [hmem, hlen, hij, List.getElem?_set_ne hne]
    · have h1 : (slots.set j (f j))[i]? = none := by
        rw [List.getElem?_eq_none]
        rw [List.length_set]
        omega
      have h2 : slots[i]? = none := by
        rw [List.getElem?_eq_none]
        omega
      simp [hlen, h1, h2]

theorem calcPprTopkParallel_row (g : Graph) (a e : ℚ) (nodes : List Nat)
    (topk : Int) (fuel : Nat) (sched : List Nat)
    (hsched : sched.Perm (List.range nodes.length)) (i : Nat)
    (hi : i < nodes.length) :
    (calcPprTopkParallel g a e nodes topk fuel sched)[i]? =
      some (parRow g a e nodes topk fuel i) := by
  unfold calcPprTopkParallel
  rw [runSched_getElem?]
  rw [if_pos]
  constructor
  · exact hsched.mem_iff.mpr (List.mem_range.mpr hi)
  · rw [List.length_replicate]
    exact hi

theorem truncRow_nonpos (topk : Int) (h : topk ≤ 0) (row : List Nat × List ℚ) :
    truncRow topk row = row := by
  unfold truncRow
  rw [if_neg (by omega)]

theorem truncRow_empty (topk : Int) : truncRow topk ([], []) = ([], []) := by
  unfold truncRow
  split <;> simp

theorem sorted_pairs_insertionSort (l : List (Nat × ℚ)) :
    List.Sorted (fun x y : Nat × ℚ => x.2 ≤ y.2)
      (l.insertionSort (fun x y => x.2 ≤ y.2)) := by
  haveI h1 : IsTotal (Nat × ℚ) (fun x y => x.2 ≤ y.2) :=
    ⟨fun x y => le_total x.2 y.2⟩
  haveI h2 : IsTrans (Nat × ℚ) (fun x y => x.2 ≤ y.2) :=
    ⟨fun x y z hab hbc => le_trans hab hbc⟩
  exact List.sorted_insertionSort _ l

theorem take_drop_dominance (l : List (Nat × ℚ))
    (hs : List.Sorted (fun x y : Nat × ℚ => x.2 ≤ y.2) l) (n : Nat) :
    ∀ x ∈ l.take n, ∀ y ∈ l.drop n, x.2 ≤ y.2 := by
  have hp : List.Pairwise (fun x y : Nat × ℚ => x.2 ≤ y.2) (l.take n ++ l.drop n) := by
    rw [List.take_append_drop]
    exact hs
  exact (List.pairwise_append.mp hp).2.2

/-! ### Class-aggregated (gpr) lemmas -/

theorem classSeeds_empty (labels : List Nat) (i : Nat) (h : i ∉ labels) :
    classSeeds labels i = [] := by
  unfold classSeeds
  rw [List.filter_eq_nil]
  intro j hj
  have hjlen : j < labels.length := List.mem_range.mp hj
  have hmem : labels.getD j 0 ∈ labels := by
    rw [List.getD_eq_getElem labels 0 hjlen]
    exact List.getElem_mem hjlen
  simp only [beq_iff_eq]
  intro hc
  exact h (hc ▸ hmem)

theorem gprInit_empty (a : ℚ) : gprInit [] a = ⟨[], [], []⟩ := rfl

theorem gprRow_empty (g : Graph) (a e : ℚ) (fuel : Nat) :
    gprRow g a e [] fuel = ([], []) := by
  unfold gprRow gprState
  rw [gprInit_empty, pushIter_empty g a e fuel _ rfl]
  rfl

theorem pushIter_add (g : Graph) (a e : ℚ) (m : Nat) : ∀ (n : Nat) (st : PState),
    pushIter g a e (m + n) st = pushIter g a e m (pushIter g a e n st)
  | 0, _ => rfl
  | n + 1, st => by
    have h : m + (n + 1) = (m + n) + 1 := rfl
    rw [h, pushIter_succ, pushIter_succ, pushIter_add g a e m n]

/-! ### Claims -/

/-- C1, counterexample: on the 2-cycle with seed 0, `alpha = 1/2`,
`epsilon = 1`, already after the first pop-and-redistribute iteration
`sum(p) + sum(r) = 3/4 ≠ 1/2 = alpha` (the discrepancy `(1-alpha)*alpha`
is structural, far beyond any floating-point tolerance): the code settles
the full residual `p[u] += res` and creates `(1-alpha)*res` of new
residual, so `sum(p) + sum(r)` grows. -/
theorem C1_counterexample :
    vsum (pprState Ring2 (1/2) 1 0 1).p + vsum (pprState Ring2 (1/2) 1 0 1).r
      ≠ (1/2 : ℚ) := by
  norm_num [pprState, pushIter, pushStep, pushInit, pushNeighbors, neighbors,
    rGet, updInc, setv, vsum, Ring2]

/-- C1, amended: the quantity conserved by every iteration of
`_calc_ppr_node` is `alpha * sum(p) + sum(r) = alpha` (exact arithmetic),
not `sum(p) + sum(r)`, and it is conserved provided the seed and every
node occurring in `indices` have positive out-degree (mass settled at a
degree-0 node leaves even this invariant). -/
theorem C1_conservation (g : Graph) (a e : ℚ) (hcons : ConsistentDeg g)
    (hind : ∀ v ∈ g.indices, 1 ≤ g.deg v) (seed : Nat) (hs : 1 ≤ g.deg seed)
    (k : Nat) :
    a * vsum (pprState g a e seed k).p + vsum (pprState g a e seed k).r = a :=
  (conserve_iter g a e hcons hind seed hs k).2

/-- C1, witness: the amended invariant checked on the 2-cycle. -/
theorem C1_conservation_witness :
    (1/2 : ℚ) * vsum (pprState Ring2 (1/2) 1 0 2).p
      + vsum (pprState Ring2 (1/2) 1 0 2).r = 1/2 :=
  C1_conservation Ring2 (1/2) 1 Ring2_consistent (by decide) 0 (by decide) 2

/-- C2, counterexample: on the graph with the single edge `0 → 1`
(so `deg 1 = 0`), `alpha = 1`, `epsilon = 1`, seed 0, the loop terminates
after 2 iterations and the returned key list is `[0, 1]`: it contains the
node 1 ≠ 0, because the activation test `r[1] = 0 ≥ alpha*eps*deg[1] = 0`
enqueues the degree-0 neighbor even though no mass reaches it. -/
theorem C2_counterexample :
    (pprState G21 1 1 0 2).q = [] ∧ (1 : Nat) ∈ (pprRow G21 1 1 0 2).1 := by
  constructor
  · norm_num [pprState, pushIter, pushStep, pushInit, pushNeighbors, neighbors,
      rGet, updInc, setv, G21]
  · norm_num [pprRow, pprState, pushIter, pushStep, pushInit, pushNeighbors,
      neighbors, rGet, updInc, setv, G21]

/-- C2, amended: for `alpha = 1` the push computation terminates, the seed's
entry is exactly 1, and every other entry of the returned dictionary (they
are exactly the degree-0 out-neighbors reached, which are enqueued at
threshold 0) carries the value 0 — so `p` restricted to nonzero values is
`{seed: 1.0}`, but the key list may contain degree-0 neighbors with
explicit zeros. -/
theorem C2_alpha_one (g : Graph) (e : ℚ) (hcons : ConsistentDeg g)
    (he : 0 < e) (seed : Nat) :
    (∃ N, (pprState g 1 e seed N).q = []) ∧
    ∀ k, rGet (pprState g 1 e seed (k + 1)).p seed = 1 ∧
      ∀ kv ∈ (pprState g 1 e seed (k + 1)).p, kv.1 ≠ seed → kv.2 = 0 :=
  ⟨push_terminates g 1 e hcons one_pos (le_refl 1) he seed,
   fun k => ⟨(alpha_one_invariant g e hcons he seed k).2.2.2.1,
     (alpha_one_invariant g e hcons he seed k).2.2.2.2⟩⟩

/-- C2, witness: the amended claim at the single-edge graph. -/
theorem C2_alpha_one_witness :
    (∃ N, (pprState G21 1 1 0 N).q = []) ∧
    ∀ k, rGet (pprState G21 1 1 0 (k + 1)).p 0 = 1 ∧
      ∀ kv ∈ (pprState G21 1 1 0 (k + 1)).p, kv.1 ≠ 0 → kv.2 = 0 :=
  C2_alpha_one G21 1 G21_consistent (by norm_num) 0

/-- Zipped (node, value) pairs of one untruncated push result. -/
def rowPairs (g : Graph) (a e : ℚ) (s fuel : Nat) : List (Nat × ℚ) :=
  (pprRow g a e s fuel).1.zip (pprRow g a e s fuel).2

/-- The pairs of one untruncated push result in ascending order of value
(the model of `np.argsort(val_np)`). -/
def rowSorted (g : Graph) (a e : ℚ) (s fuel : Nat) : List (Nat × ℚ) :=
  (rowPairs g a e s fuel).insertionSort (fun x y => x.2 ≤ y.2)

/-- The entries kept by `[-topk:]`: the last `topk` sorted positions. -/
def rowKept (g : Graph) (a e : ℚ) (s fuel : Nat) (topk : Int) : List (Nat × ℚ) :=
  (rowSorted g a e s fuel).drop ((rowSorted g a e s fuel).length - topk.toNat)

/-- The entries discarded by `[-topk:]`. -/
def rowOmitted (g : Graph) (a e : ℚ) (s fuel : Nat) (topk : Int) : List (Nat × ℚ) :=
  (rowSorted g a e s fuel).take ((rowSorted g a e s fuel).length - topk.toNat)

/-- Top-k contract of one row of the parallel batch driver: for `topk > 0`
the returned row is exactly the kept entries (the last `min(topk, |support|)`
positions of the value-sorted untruncated result); kept and omitted entries
together permute the untruncated result; every kept value dominates every
omitted value.  For `topk ≤ 0` the row is returned whole. -/
def TopkRowSpec (g : Graph) (a e : ℚ) (nodes : List Nat) (topk : Int)
    (fuel : Nat) (sched : List Nat) (i : Nat) : Prop :=
  (0 < topk →
    (calcPprTopkParallel g a e nodes topk fuel sched)[i]? =
      some ((rowKept g a e (nodes.getD i 0) fuel topk).map Prod.fst,
        (rowKept g a e (nodes.getD i 0) fuel topk).map Prod.snd) ∧
    (rowKept g a e (nodes.getD i 0) fuel topk).length
      = min topk.toNat (rowPairs g a e (nodes.getD i 0) fuel).length ∧
    (rowOmitted g a e (nodes.getD i 0) fuel topk
      ++ rowKept g a e (nodes.getD i 0) fuel topk).Perm
        (rowPairs g a e (nodes.getD i 0) fuel) ∧
    (∀ x ∈ rowOmitted g a e (nodes.getD i 0) fuel topk,
     ∀ y ∈ rowKept g a e (nodes.getD i 0) fuel topk, x.2 ≤ y.2)) ∧
  (topk ≤ 0 →
    (calcPprTopkParallel g a e nodes topk fuel sched)[i]? =
      some (pprRow g a e (nodes.getD i 0) fuel))

/-- C3: the parallel batch driver truncates each row exactly as specified:
for `topk > 0` it keeps the `min(topk, |support|)` highest-valued entries of
the untruncated push result of that row's seed (no kept value below any
omitted value, ties broken by the sort), and for `topk ≤ 0` it keeps the
whole row. -/
theorem C3_topk_row (g : Graph) (a e : ℚ) (nodes : List Nat) (topk : Int)
    (fuel : Nat) (sched : List Nat)
    (hsched : sched.Perm (List.range nodes.length)) (i : Nat)
    (hi : i < nodes.length) :
    TopkRowSpec g a e nodes topk fuel sched i := by
  have hrow := calcPprTopkParallel_row g a e nodes topk fuel sched hsched i hi
  have hperm : (rowSorted g a e (nodes.getD i 0) fuel).Perm
      (rowPairs g a e (nodes.getD i 0) fuel) :=
    List.perm_insertionSort _ _
  have hlen : (rowSorted g a e (nodes.getD i 0) fuel).length
      = (rowPairs g a e (nodes.getD i 0) fuel).length := hperm.length_eq
  constructor
  · intro htopk
    have htr : truncRow topk (pprRow g a e (nodes.getD i 0) fuel)
        = ((rowKept g a e (nodes.getD i 0) fuel topk).map Prod.fst,
           (rowKept g a e (nodes.getD i 0) fuel topk).map Prod.snd) := by
      unfold truncRow rowKept rowSorted rowPairs
      rw [if_pos htopk]
    refine ⟨?_, ?_, ?_, ?_⟩
    · rw [hrow]
      unfold parRow
      rw [htr]
    · unfold rowKept
      rw [List.length_drop, hlen]
      omega
    · unfold rowOmitted rowKept
      rw [List.take_append_drop]
      exact hperm
    · exact take_drop_dominance _ (sorted_pairs_insertionSort _) _
  · intro htopk
    rw [hrow]
    unfold parRow
    rw [truncRow_nonpos topk htopk]

/-- C3, witness: the top-k contract checked for the 2-cycle with two rows,
the schedule that finishes row 1 before row 0, and `topk = 1`. -/
theorem C3_topk_row_witness : TopkRowSpec Ring2 (1/2) 1 [0, 1] 1 2 [1, 0] 0 :=
  C3_topk_row Ring2 (1/2) 1 [0, 1] 1 2 [1, 0] (by decide) 0 (by decide)

/-- C4, counterexample: with an unrecognized normalization string the first
observable event of `topk_ppr_matrix` is the PPR computation (line 99), not
the configuration check: the error is raised only afterwards (line 123), so
the configuration error is not detected before the PPR computation starts,
contrary to the claim. -/
theorem C4_counterexample :
    (topkPprMatrix G21 (1/2) 1 [0] 0 "bogus" 2).1.head? = some Ev.pprCompute ∧
    (topkPprMatrix G21 (1/2) 1 [0] 0 "bogus" 2).1
      = [Ev.pprCompute, Ev.raiseNorm "Unknown PPR normalization: bogus"] ∧
    (topkPprMatrix G21 (1/2) 1 [0] 0 "bogus" 2).2 = none := by
  refine ⟨?_, ?_, ?_⟩ <;> rfl

/-- C4, amended: for any normalization string other than `sym`, `col`,
`row`, `topk_ppr_matrix` raises `ValueError` with a message naming the
unrecognized string and returns no (partial) result, but the error is
detected only after the PPR computation has already run (the trace is
`pprCompute` followed by the raise), not before it. -/
theorem C4_norm_error (g : Graph) (a e : ℚ) (idx : List Nat) (topk : Int)
    (fuel : Nat) (norm : String) (h1 : norm ≠ "sym") (h2 : norm ≠ "col")
    (h3 : norm ≠ "row") :
    topkPprMatrix g a e idx topk norm fuel =
      ([Ev.pprCompute, Ev.raiseNorm ("Unknown PPR normalization: " ++ norm)],
        none) := by
  unfold topkPprMatrix
  rw [if_neg h1, if_neg h2, if_neg h3]

/-- C4, witness: the amended behaviour at the string "foo". -/
theorem C4_norm_error_witness :
    topkPprMatrix G21 (1/2) 1 [0] 0 "foo" 2 =
      ([Ev.pprCompute, Ev.raiseNorm ("Unknown PPR normalization: " ++ "foo")],
        none) :=
  C4_norm_error G21 (1/2) 1 [0] 0 2 "foo" (by decide) (by decide) (by decide)

/-- Behaviour of one pop of a degree-0 node `u` (with a degree vector
consistent with the CSR slices): the neighbor slice is empty, so the whole
redistribution loop — including the division `res / deg[u]`, which only
occurs inside that loop — is never executed; the state change is exactly
`p[u] += r[u]; r[u] = 0`, every other residual is untouched, nothing is
enqueued, and the worklist shrinks by the popped node. -/
def DegZeroPopSpec (g : Graph) (a e : ℚ) (p r : List (Nat × ℚ)) (u : Nat)
    (qt : List Nat) : Prop :=
  neighbors g u = [] ∧
  pushStep g a e ⟨p, r, u :: qt⟩ = ⟨updInc p u (rGet r u), setv r u 0, qt⟩ ∧
  (∀ w, w ≠ u → rGet (pushStep g a e ⟨p, r, u :: qt⟩).r w = rGet r w) ∧
  (pushStep g a e ⟨p, r, u :: qt⟩).q = qt

/-- C5: a popped node with `degree(u) = 0` never redistributes: its neighbor
slice is empty (consistent degree vector), so no division by `degree(u)` is
evaluated, its residual is settled into `p(u)`, no mass is forwarded to any
other node, and nothing is enqueued. -/
theorem C5_deg_zero_pop (g : Graph) (a e : ℚ) (hcons : ConsistentDeg g)
    (p r : List (Nat × ℚ)) (u : Nat) (qt : List Nat) (hd : g.deg u = 0) :
    DegZeroPopSpec g a e p r u qt := by
  have hnb : neighbors g u = [] := by
    have hcu := hcons u
    rw [hd] at hcu
    exact List.length_eq_zero.mp hcu
  have hstep : pushStep g a e ⟨p, r, u :: qt⟩
      = ⟨updInc p u (rGet r u), setv r u 0, qt⟩ := by
    rw [pushStep_cons, hnb, pushNeighbors_nil]
  refine ⟨hnb, hstep, ?_, ?_⟩
  · intro w hw
    rw [hstep]
    show rGet (setv r u 0) w = rGet r w
    rw [rGet_setv]
    rw [if_neg (fun hc : u = w => hw hc.symm)]
  · rw [hstep]

/-- C5, witness: a degree-0 pop on the single-edge graph. -/
theorem C5_deg_zero_pop_witness :
    DegZeroPopSpec G21 (1/2) 1 [(0, 1/2)] [(0, 0), (1, 1/4)] 1 [] :=
  C5_deg_zero_pop G21 (1/2) 1 G21_consistent [(0, 1/2)] [(0, 0), (1, 1/4)] 1 []
    (by decide)

/-- C6: the push computation terminates for every graph with a consistent
degree vector, every seed, `alpha ∈ (0, 1)` and `epsilon > 0`: there is an
iteration count `N` after which (and forever after — the loop has exited)
the worklist is empty, so the number of pop operations is bounded. -/
theorem C6_termination (g : Graph) (a e : ℚ) (hcons : ConsistentDeg g)
    (ha0 : 0 < a) (ha1 : a < 1) (he : 0 < e) (seed : Nat) :
    ∃ N, ∀ M, N ≤ M → (pprState g a e seed M).q = [] := by
  obtain ⟨N, hN⟩ := push_terminates g a e hcons ha0 (le_of_lt ha1) he seed
  refine ⟨N, fun M hM => ?_⟩
  have hsplit : M - N + N = M := by omega
  have : pprState g a e seed M
      = pushIter g a e (M - N) (pprState g a e seed N) := by
    simp only [pprState]
    rw [← pushIter_add g a e (M - N) N, hsplit]
  rw [this, pushIter_empty g a e (M - N) _ hN]
  exact hN

/-- C6, witness: termination on the 2-cycle with `alpha = 1/2`,
`epsilon = 1`. -/
theorem C6_termination_witness :
    ∃ N, ∀ M, N ≤ M → (pprState Ring2 (1/2) 1 0 M).q = [] :=
  C6_termination Ring2 (1/2) 1 Ring2_consistent (by norm_num) (by norm_num)
    (by norm_num) 0

/-- Batch/parallel equivalence: with `topk ≤ 0` the parallel driver (under
any completion order of its rows) returns exactly the list of untruncated
per-seed push results, i.e. the sequential driver's output, and each row is
a function of its own seed alone. -/
def ParSeqSpec (g : Graph) (a e : ℚ) (nodes : List Nat) (topk : Int)
    (fuel : Nat) (sched : List Nat) : Prop :=
  calcPprTopkParallel g a e nodes topk fuel sched = calcPpr g a e nodes fuel ∧
  ∀ i, i < nodes.length →
    (calcPprTopkParallel g a e nodes topk fuel sched)[i]? =
      some (pprRow g a e (nodes.getD i 0) fuel)

/-- C7: running the seeds sequentially (`calc_ppr`) and through the parallel
batch driver (`calc_ppr_topk_parallel` with `topk ≤ 0`) produces identical
per-row results, independent of the order in which the scheduler completes
the rows: each output row depends only on its own seed. -/
theorem C7_parallel_eq_sequential (g : Graph) (a e : ℚ) (nodes : List Nat)
    (topk : Int) (fuel : Nat) (sched : List Nat)
    (hsched : sched.Perm (List.range nodes.length)) (htopk : topk ≤ 0) :
    ParSeqSpec g a e nodes topk fuel sched := by
  have hrow : ∀ i, i < nodes.length →
      (calcPprTopkParallel g a e nodes topk fuel sched)[i]? =
        some (pprRow g a e (nodes.getD i 0) fuel) := by
    intro i hi
    rw [calcPprTopkParallel_row g a e nodes topk fuel sched hsched i hi]
    unfold parRow
    rw [truncRow_nonpos topk htopk]
  refine ⟨?_, hrow⟩
  apply List.ext_getElem?
  intro i
  by_cases hi : i < nodes.length
  · rw [hrow i hi]
    unfold calcPpr
    rw [List.getElem?_map, List.getElem?_eq_getElem hi]
    simp only [Option.map_some']
    rw [List.getD_eq_getElem nodes 0 hi]
  · have hlen1 : (calcPprTopkParallel g a e nodes topk fuel sched).length
        = nodes.length := by
      unfold calcPprTopkParallel
      rw [runSched_length, List.length_replicate]
    have h1 : (calcPprTopkParallel g a e nodes topk fuel sched)[i]? = none := by
      rw [List.getElem?_eq_none]
      omega
    have h2 : (calcPpr g a e nodes fuel)[i]? = none := by
      rw [List.getElem?_eq_none]
      unfold calcPpr
      rw [List.length_map]
      omega
    rw [h1, h2]

/-- C7, witness: both drivers on the 2-cycle with seeds `[0, 1]`, the
schedule that completes row 1 first, and `topk = -1`. -/
theorem C7_parallel_eq_sequential_witness :
    ParSeqSpec Ring2 (1/2) 1 [0, 1] (-1) 2 [1, 0] :=
  C7_parallel_eq_sequential Ring2 (1/2) 1 [0, 1] (-1) 2 [1, 0] (by decide)
    (by decide)

/-- C8: a class label with no assigned node yields an empty seed set and an
all-zero (empty-support) output row rather than an error, and the multi-seed
push applied to an empty seed list returns the empty sparse vector. -/
theorem C8_empty_class (g : Graph) (a e : ℚ) (labels : List Nat) (i : Nat)
    (h : i ∉ labels) (topk : Int) (fuel : Nat) :
    classSeeds labels i = [] ∧
    calcGprRow g a e labels i topk fuel = ([], []) ∧
    gprRow g a e [] fuel = ([], []) := by
  have hcs := classSeeds_empty labels i h
  refine ⟨hcs, ?_, gprRow_empty g a e fuel⟩
  unfold calcGprRow
  rw [hcs, gprRow_empty, truncRow_empty]

/-- C8, witness: class 2 is unused in the label vector `[0, 1, 0]`. -/
theorem C8_empty_class_witness :
    classSeeds [0, 1, 0] 2 = [] ∧
    calcGprRow Ring2 (1/2) 1 [0, 1, 0] 2 3 5 = ([], []) ∧
    gprRow Ring2 (1/2) 1 [] 5 = ([], []) :=
  C8_empty_class Ring2 (1/2) 1 [0, 1, 0] 2 (by decide) 3 5

/-- C9: for `0 < alpha ≤ 1` the key list returned by the single-seed push
always contains the seed itself, and the seed's settled value is at least
`alpha` (the seed is popped first, settling its initial residual `alpha`,
and every later addition to `p` is nonnegative); this holds after every
positive number of loop iterations, in particular at termination. -/
theorem C9_seed_entry (g : Graph) (a e : ℚ) (ha0 : 0 < a) (ha1 : a ≤ 1)
    (he : 0 < e) (seed k : Nat) :
    seed ∈ (pprRow g a e seed (k + 1)).1 ∧
    a ≤ rGet (pprState g a e seed (k + 1)).p seed :=
  ⟨(seed_ge_alpha g a e (le_of_lt ha0) ha1 seed k).2.1,
   (seed_ge_alpha g a e (le_of_lt ha0) ha1 seed k).2.2⟩

/-- C9, witness: the seed entry on the 2-cycle after 2 iterations. -/
theorem C9_seed_entry_witness :
    0 ∈ (pprRow Ring2 (1/2) 1 0 2).1 ∧
    (1/2 : ℚ) ≤ rGet (pprState Ring2 (1/2) 1 0 2).p 0 :=
  C9_seed_entry Ring2 (1/2) 1 (by norm_num) (by norm_num) (by norm_num) 0 1

/-- C10, counterexample: for the scenario the claim describes — seed 0 with
out-neighbor 1 of degree 0 and `alpha = 1/2 < 1` — the run terminates, node
1 does appear in the returned keys, but its settled value is `1/4 ≠ 0`: the
degree-0 neighbor receives `(1-alpha)*alpha/deg(0) = 1/4` of residual and
settles it, so the entry is not zero-valued as claimed. -/
theorem C10_counterexample :
    (pprState G21 (1/2) 1 0 2).q = [] ∧
    (1 : Nat) ∈ (pprRow G21 (1/2) 1 0 2).1 ∧
    rGet (pprState G21 (1/2) 1 0 2).p 1 = 1/4 ∧ ((1/4 : ℚ) ≠ 0) := by
  refine ⟨?_, ?_, ?_, by norm_num⟩ <;>
    norm_num [pprRow, pprState, pushIter, pushStep, pushInit, pushNeighbors,
      neighbors, rGet, updInc, setv, G21]

/-- Explicit zero-valued entries in a returned row: when the run reaches its
terminal state (empty worklist), the degree-0 out-neighbor `v` of the seed
appears in the returned key list with settled value exactly 0. -/
def ZeroEntrySpec (g : Graph) (e : ℚ) (seed v : Nat) : Prop :=
  (∃ N, (pprState g 1 e seed N).q = []) ∧
  ∀ N, (pprState g 1 e seed N).q = [] →
    v ∈ (pprRow g 1 e seed N).1 ∧ rGet (pprState g 1 e seed N).p v = 0 ∧
      v ≠ seed

/-- C10, amended: the returned row can contain explicit zero-valued entries,
but for `alpha = 1` (not `alpha < 1`): a degree-0 out-neighbor `v` of the
seed is always enqueued (its activation threshold `alpha*eps*deg(v)` is 0),
receives no mass because `1 - alpha = 0`, and therefore appears in the
returned `(keys, values)` lists with value 0. -/
theorem C10_zero_entry (g : Graph) (e : ℚ) (hcons : ConsistentDeg g)
    (he : 0 < e) (seed v : Nat) (hv : v ∈ neighbors g seed)
    (hd : g.deg v = 0) : ZeroEntrySpec g e seed v := by
  have hvs : v ≠ seed := by
    intro hc
    subst hc
    have hnb : neighbors g v = [] := by
      have hcu := hcons v
      rw [hd] at hcu
      exact List.length_eq_zero.mp hcu
    rw [hnb] at hv
    exact absurd hv (List.not_mem_nil v)
  have hq1 : v ∈ (pushStep g 1 e (pushInit seed 1)).q := by
    have hInit : pushInit seed 1 = ⟨[(seed, 0)], [(seed, 1)], [seed]⟩ := rfl
    rw [hInit, pushStep_cons]
    have hz : ∀ kv ∈ setv [(seed, (1 : ℚ))] seed 0, kv.2 = 0 := by
      simp [setv]
    exact pn_adds_deg0 g e (rGet [(seed, 1)] seed) (g.deg seed : ℚ)
      (neighbors g seed) (setv [(seed, 1)] seed 0, []) hz v hv hd
  refine ⟨push_terminates g 1 e hcons one_pos (le_refl 1) he seed, ?_⟩
  intro N hN
  cases N with
  | zero => simp [pprState, pushIter, pushInit] at hN
  | succ M =>
    have hmem : v ∈ (pprState g 1 e seed (M + 1)).q ∨
        v ∈ (pprState g 1 e seed (M + 1)).p.map Prod.fst :=
      mem_persists_iter g 1 e v M (pushStep g 1 e (pushInit seed 1))
        (Or.inl hq1)
    rcases hmem with h1 | h1
    · rw [hN] at h1
      exact absurd h1 (List.not_mem_nil v)
    · have hinv := alpha_one_invariant g e hcons he seed M
      obtain ⟨kv, hkv, hkveq⟩ := List.mem_map.mp h1
      have hkvne : kv.1 ≠ seed := by
        rw [hkveq]
        exact hvs
      have hz : kv.2 = 0 := hinv.2.2.2.2 kv hkv hkvne
      have hr : kv.2 = rGet (pprState g 1 e seed (M + 1)).p kv.1 :=
        entry_eq_rGet _ hinv.2.2.1 kv hkv
      refine ⟨h1, ?_, hvs⟩
      rw [← hkveq, ← hr]
      exact hz

/-- C10, witness: the amended claim on the single-edge graph `0 → 1`. -/
theorem C10_zero_entry_witness : ZeroEntrySpec G21 1 0 1 :=
  C10_zero_entry G21 1 G21_consistent (by norm_num) 0 1 (by decide) (by decide)
